import Mathlib

/-
  Verification of the target-resolution pipeline stages of cursorless:
  the Position Stage (src/processTargets/modifiers/PositionStage.ts) and
  the Token/Delimiter Stage (src/processTargets/pipelineStages/TokenStage.ts),
  over a shallow embedding of the vscode document/range primitives they use.

  Documents are modelled as lists of line texts (char lists, line
  terminators excluded, as in vscode's TextLine.text); positions are
  (line, character) pairs of naturals; the regex scans /\s+$/ and /^\s+/
  are modelled with takeWhile on (reversed) character lists.
-/

namespace Cursorless

/-- Whitespace test modelling the JavaScript regex class \s
(space, tab, line terminators, and the Unicode space characters). -/
def isWhitespace (c : Char) : Bool :=
  decide (c.toNat ∈ ([0x09, 0x0A, 0x0B, 0x0C, 0x0D, 0x20, 0xA0, 0x1680,
    0x2028, 0x2029, 0x202F, 0x205F, 0x3000, 0xFEFF] : List Nat)) ||
  decide (0x2000 ≤ c.toNat ∧ c.toNat ≤ 0x200A)

/-- vscode.Position: zero-based line and character (column). -/
structure Position where
  line : Nat
  character : Nat
deriving DecidableEq

/-- vscode.Range: a start and an end position. -/
structure Range where
  start : Position
  «end» : Position
deriving DecidableEq

/-- A text document: the list of its line texts, without line terminators. -/
structure TextDocument where
  lines : List (List Char)
deriving DecidableEq

/-- document.lineAt(p).text — the text of the line holding position p. -/
def TextDocument.lineAt (d : TextDocument) (line : Nat) : List Char :=
  d.lines.getD line []

/-- vscode.TextEditor, reduced to the document the stages read. -/
structure TextEditor where
  document : TextDocument
deriving DecidableEq

/-- TypedSelection from typings/Types.ts: the annotated range value
flowing through the pipeline. Field order follows the source interface. -/
structure TypedSelection where
  editor : TextEditor
  isReversed : Option Bool
  isRawSelection : Option Bool
  delimiter : Option (List Char)
  contentRange : Range
  interiorRange : Option Range
  leadingDelimiterRange : Option Range
  trailingDelimiterRange : Option Range
  boundary : Option (List Range)
deriving DecidableEq

/-- SelectionWithEditor from typings/Types.ts (a vscode.Selection is a
range with an orientation; the orientation is irrelevant here). -/
structure SelectionWithEditor where
  editor : TextEditor
  selection : Range

/-- ProcessedTargetsContext from typings/Types.ts: read-only services
supplied to every stage (hat-token lookup elided to the mark lists and
the node locator, which neither stage under verification reads). -/
structure ProcessedTargetsContext where
  thatMark : List SelectionWithEditor
  sourceMark : List SelectionWithEditor
  getNodeAtLocation : Position → Nat

/-- Modelled from the spec: the modifier descriptor consumed by the
Position Stage (typings/target.types.ts is not among the sources).
The spec restricts `position` to the enum before/start/after/end;
at runtime the field is a plain string, so it is a `String` here in
order to state behaviour on values outside the enum. -/
structure PositionModifier where
  position : String

/-- Modelled from the spec: the containing-scope descriptor handed to the
Token Stage (typings/target.types.ts is not among the sources); the
Token Stage never reads it. -/
structure ContainingScopeModifier where
  scopeType : String

/-- Helper `range` of PositionStage.ts: an undefined position gives
undefined, a position gives the zero-width range at that position. -/
def rangeAt (p : Option Position) : Option Range :=
  p.map (fun q => ⟨q, q⟩)

/-- PositionStage.run: collapse contentRange (and interiorRange, when
present) to the start or the end position according to the descriptor.
The source switch has no default case: any other position value leaves
the copied selection unchanged. -/
def PositionStage.run (context : ProcessedTargetsContext)
    (stage : PositionModifier) (selection : TypedSelection) : TypedSelection :=
  if stage.position = "before" ∨ stage.position = "start" then
    { selection with
        contentRange := ⟨selection.contentRange.start, selection.contentRange.start⟩
        interiorRange := rangeAt (selection.interiorRange.map (fun r => r.start)) }
  else if stage.position = "after" ∨ stage.position = "end" then
    { selection with
        contentRange := ⟨selection.contentRange.«end», selection.contentRange.«end»⟩
        interiorRange := rangeAt (selection.interiorRange.map (fun r => r.«end»)) }
  else
    selection

/-- Length of the maximal leading whitespace run of a char list:
the regex match /^\s+/ of TokenStage.ts (0 when the match is null). -/
def leadingWsLen (l : List Char) : Nat :=
  (l.takeWhile isWhitespace).length

/-- Length of the maximal trailing whitespace run of a char list:
the regex match /\s+$/ of TokenStage.ts (0 when the match is null). -/
def trailingWsLen (l : List Char) : Nat :=
  (l.reverse.takeWhile isWhitespace).length

/-- Lines 26-37 of TokenStage.ts: scan the text before position s on
its line for a maximal whitespace run ending at s. -/
def leadingDelimiterOf (doc : TextDocument) (s : Position) : Option Range :=
  let startLine := doc.lineAt s.line
  let leadLen := trailingWsLen (startLine.take s.character)
  if leadLen = 0 then none
  else some ⟨⟨s.line, s.character - leadLen⟩, ⟨s.line, s.character⟩⟩

/-- Lines 39-49 of TokenStage.ts: scan the text after position e on its
line for a maximal whitespace run starting at e. -/
def trailingDelimiterOf (doc : TextDocument) (e : Position) : Option Range :=
  let endLine := doc.lineAt e.line
  let trailLen := leadingWsLen (endLine.drop e.character)
  if trailLen = 0 then none
  else some ⟨⟨e.line, e.character⟩, ⟨e.line, e.character + trailLen⟩⟩

/-- Lines 51-54 of TokenStage.ts: the qualification policy deciding
whether the selection is in a delimited list. -/
def isInDelimitedList (doc : TextDocument) (r : Range) : Bool :=
  ((leadingDelimiterOf doc r.start).isSome ||
      (trailingDelimiterOf doc r.«end»).isSome) &&
  ((leadingDelimiterOf doc r.start).isSome ||
      decide (r.start.character = 0)) &&
  ((trailingDelimiterOf doc r.«end»).isSome ||
      decide (r.«end» = ⟨r.«end».line, (doc.lineAt r.«end».line).length⟩))

/-- getDelimiterRanges of TokenStage.ts: the pair of delimiter ranges to
attach — the scanned ranges when qualified, both absent otherwise. -/
def getDelimiterRanges (selection : TypedSelection) :
    Option Range × Option Range :=
  let doc := selection.editor.document
  let q := isInDelimitedList doc selection.contentRange
  (if q then leadingDelimiterOf doc selection.contentRange.start else none,
   if q then trailingDelimiterOf doc selection.contentRange.«end» else none)

/-- TokenStage.run: spread the input, set delimiter to a single space,
and overwrite both delimiter-range fields with the scanned pair. -/
def TokenStage.run (context : ProcessedTargetsContext)
    (stage : ContainingScopeModifier) (selection : TypedSelection) :
    TypedSelection :=
  let ranges := getDelimiterRanges selection
  { selection with
      delimiter := some [' ']
      leadingDelimiterRange := ranges.1
      trailingDelimiterRange := ranges.2 }

/-- Validity of a content range against its document, as the data-model
invariant requires: both endpoints name an existing line and a column
not beyond that line's length. -/
def TypedSelection.contentRangeValid (sel : TypedSelection) : Prop :=
  sel.contentRange.start.line < sel.editor.document.lines.length ∧
  sel.contentRange.«end».line < sel.editor.document.lines.length ∧
  sel.contentRange.start.character ≤
    (sel.editor.document.lineAt sel.contentRange.start.line).length ∧
  sel.contentRange.«end».character ≤
    (sel.editor.document.lineAt sel.contentRange.«end».line).length

instance (sel : TypedSelection) : Decidable sel.contentRangeValid := by
  unfold TypedSelection.contentRangeValid
  infer_instance

/-- Stated from the spec (§4.3, step 1): a leading whitespace delimiter
run is found exactly when the content start is not at column 0 and the
character immediately before it on its line is whitespace. -/
def leadFound (doc : TextDocument) (s : Position) : Prop :=
  0 < s.character ∧
  isWhitespace ((doc.lineAt s.line).getD (s.character - 1) 'a') = true

/-- Stated from the spec (§4.3, step 2): a trailing whitespace delimiter
run is found exactly when the content end is before the end of its line
and the character at it is whitespace. -/
def trailFound (doc : TextDocument) (e : Position) : Prop :=
  e.character < (doc.lineAt e.line).length ∧
  isWhitespace ((doc.lineAt e.line).getD e.character 'a') = true

/-- Stated from the spec (§4.3, step 3): the three-part qualification
policy for being in a delimited list. -/
def qualifiedSpec (doc : TextDocument) (r : Range) : Prop :=
  (leadFound doc r.start ∨ trailFound doc r.«end») ∧
  (leadFound doc r.start ∨ r.start.character = 0) ∧
  (trailFound doc r.«end» ∨
    r.«end».character = (doc.lineAt r.«end».line).length)

instance (doc : TextDocument) (s : Position) : Decidable (leadFound doc s) := by
  unfold leadFound; infer_instance

instance (doc : TextDocument) (e : Position) : Decidable (trailFound doc e) := by
  unfold trailFound; infer_instance

instance (doc : TextDocument) (r : Range) : Decidable (qualifiedSpec doc r) := by
  unfold qualifiedSpec; infer_instance

/-! ### Concrete sample values used to instantiate the theorems -/

/-- A pipeline context with empty mark lists and a trivial node locator. -/
def ctx0 : ProcessedTargetsContext :=
  ⟨[], [], fun _ => 0⟩

/-- A containing-scope descriptor for the token scope. -/
def tokenScope0 : ContainingScopeModifier :=
  ⟨"token"⟩

/-- One-line document "foo bar baz" with the spec's token selection of
"bar" (columns 4-7), carrying a non-space delimiter and rich fields. -/
def selBar : TypedSelection :=
  ⟨⟨⟨[['f', 'o', 'o', ' ', 'b', 'a', 'r', ' ', 'b', 'a', 'z']]⟩⟩,
    some false, some false, some [','],
    ⟨⟨0, 4⟩, ⟨0, 7⟩⟩, some ⟨⟨0, 5⟩, ⟨0, 6⟩⟩, none, none,
    some [⟨⟨0, 4⟩, ⟨0, 5⟩⟩]⟩

/-- One-line document "foobar" with the spec's selection of "foo"
(columns 0-3): whitespace on neither side, end not at end-of-line. -/
def selFoo : TypedSelection :=
  ⟨⟨⟨[['f', 'o', 'o', 'b', 'a', 'r']]⟩⟩,
    none, none, none, ⟨⟨0, 0⟩, ⟨0, 3⟩⟩, none, none, none, none⟩

/-- One-line document "x foo" selecting "foo" (columns 2-5): a leading
whitespace run exists and the end sits at end-of-line. -/
def selEol : TypedSelection :=
  ⟨⟨⟨[['x', ' ', 'f', 'o', 'o']]⟩⟩,
    none, none, none, ⟨⟨0, 2⟩, ⟨0, 5⟩⟩, none, none, none, none⟩

/-- A four-line document with a content range spanning lines 0-3 and an
interior range spanning lines 1-2. -/
def selMulti : TypedSelection :=
  ⟨⟨⟨[['a', 'b'], ['c', 'd'], ['e', 'f', 'g'],
      ['h', 'i', 'j', 'k', 'l', 'm']]⟩⟩,
    some true, none, some [';'],
    ⟨⟨0, 2⟩, ⟨3, 5⟩⟩, some ⟨⟨1, 0⟩, ⟨2, 2⟩⟩,
    some ⟨⟨0, 1⟩, ⟨0, 2⟩⟩, none, none⟩

/-! ### Generic list lemmas used to characterise the whitespace scans -/

theorem takeWhileLen_le {α : Type} (p : α → Bool) (l : List α) :
    (l.takeWhile p).length ≤ l.length := by
  induction l with
  | nil => simp
  | cons x xs ih =>
    rw [List.takeWhile_cons]
    by_cases h : p x <;> simp [h] <;> omega

theorem takeWhile_getD {α : Type} (p : α → Bool) (d : α) :
    ∀ (l : List α) (i : Nat), i < (l.takeWhile p).length →
      p (l.getD i d) = true := by
  intro l
  induction l with
  | nil => simp
  | cons x xs ih =>
    intro i h
    rw [List.takeWhile_cons] at h
    by_cases hp : p x
    · simp only [hp, if_true, List.length_cons] at h
      cases i with
      | zero => simpa using hp
      | succ j => simpa using ih j (by omega)
    · simp [hp] at h

theorem takeWhile_getD_maximal {α : Type} (p : α → Bool) (d : α) :
    ∀ l : List α, (l.takeWhile p).length < l.length →
      p (l.getD ((l.takeWhile p).length) d) = false := by
  intro l
  induction l with
  | nil => simp
  | cons x xs ih =>
    intro h
    rw [List.takeWhile_cons] at h ⊢
    by_cases hp : p x
    · simp only [hp, if_true, List.length_cons] at h ⊢
      simpa using ih (by omega)
    · simp only [hp, if_false, List.length_nil, List.takeWhile_nil] at h ⊢
      simpa using hp

theorem takeWhileLen_pos_iff {α : Type} (p : α → Bool) (d : α) (l : List α) :
    0 < (l.takeWhile p).length ↔ 0 < l.length ∧ p (l.getD 0 d) = true := by
  cases l with
  | nil => simp
  | cons x xs =>
    rw [List.takeWhile_cons]
    by_cases hp : p x <;> simp [hp]

theorem getD_take {α : Type} :
    ∀ (l : List α) (n i : Nat) (d : α), i < n →
      (l.take n).getD i d = l.getD i d := by
  intro l
  induction l with
  | nil => simp
  | cons x xs ih =>
    intro n i d h
    cases n with
    | zero => omega
    | succ m =>
      cases i with
      | zero => simp
      | succ j => simpa using ih m j d (by omega)

theorem getD_drop {α : Type} :
    ∀ (l : List α) (n i : Nat) (d : α), (l.drop n).getD i d = l.getD (n + i) d := by
  intro l
  induction l with
  | nil => simp
  | cons x xs ih =>
    intro n i d
    cases n with
    | zero => simp
    | succ m =>
      have : m + 1 + i = (m + i) + 1 := by omega
      simp [this, ih m i d]

theorem getD_reverse {α : Type} (l : List α) (i : Nat) (d : α)
    (h : i < l.length) :
    l.reverse.getD i d = l.getD (l.length - 1 - i) d := by
  have h1 : i < l.reverse.length := by simpa using h
  have h2 : l.length - 1 - i < l.length := by omega
  rw [List.getD_eq_getElem _ d h1, List.getD_eq_getElem _ d h2]
  exact List.getElem_reverse ..

/-! ### Characterisation of the two whitespace-run lengths -/

theorem leadingWsLen_le (l : List Char) : leadingWsLen l ≤ l.length :=
  takeWhileLen_le isWhitespace l

theorem trailingWsLen_le (l : List Char) : trailingWsLen l ≤ l.length := by
  simpa using takeWhileLen_le isWhitespace l.reverse

theorem leadingWsLen_ws (l : List Char) (d : Char) (i : Nat)
    (h : i < leadingWsLen l) : isWhitespace (l.getD i d) = true :=
  takeWhile_getD isWhitespace d l i h

theorem leadingWsLen_maximal (l : List Char) (d : Char)
    (h : leadingWsLen l < l.length) :
    isWhitespace (l.getD (leadingWsLen l) d) = false :=
  takeWhile_getD_maximal isWhitespace d l h

theorem leadingWsLen_pos_iff (l : List Char) (d : Char) :
    0 < leadingWsLen l ↔ 0 < l.length ∧ isWhitespace (l.getD 0 d) = true :=
  takeWhileLen_pos_iff isWhitespace d l

theorem trailingWsLen_ws (l : List Char) (d : Char) (i : Nat)
    (h1 : l.length - trailingWsLen l ≤ i) (h2 : i < l.length) :
    isWhitespace (l.getD i d) = true := by
  have hle := trailingWsLen_le l
  have hidx : l.length - 1 - i < trailingWsLen l := by omega
  have hws := takeWhile_getD isWhitespace d l.reverse (l.length - 1 - i) hidx
  rw [getD_reverse l (l.length - 1 - i) d (by omega)] at hws
  have heq : l.length - 1 - (l.length - 1 - i) = i := by omega
  rwa [heq] at hws

theorem trailingWsLen_maximal (l : List Char) (d : Char)
    (h : trailingWsLen l < l.length) :
    isWhitespace (l.getD (l.length - trailingWsLen l - 1) d) = false := by
  have hmax := takeWhile_getD_maximal isWhitespace d l.reverse
    (by simpa using h)
  rw [getD_reverse l _ d (by simpa using h)] at hmax
  have heq : l.length - 1 - (l.reverse.takeWhile isWhitespace).length =
      l.length - trailingWsLen l - 1 := by
    have : (l.reverse.takeWhile isWhitespace).length = trailingWsLen l := rfl
    omega
  rwa [heq] at hmax

theorem trailingWsLen_pos_iff (l : List Char) (d : Char) :
    0 < trailingWsLen l ↔
      0 < l.length ∧ isWhitespace (l.getD (l.length - 1) d) = true := by
  unfold trailingWsLen
  rw [takeWhileLen_pos_iff isWhitespace d l.reverse]
  rcases Nat.eq_zero_or_pos l.length with h0 | h0
  · simp [List.length_eq_zero.mp h0]
  · rw [getD_reverse l 0 d (by omega)]
    simp

/-! ### Characterisation of the two delimiter scans -/

theorem leadingDelimiterOf_eq_some (doc : TextDocument) (s : Position)
    (r : Range) (h : leadingDelimiterOf doc s = some r) :
    0 < trailingWsLen ((doc.lineAt s.line).take s.character) ∧
    r = ⟨⟨s.line, s.character -
            trailingWsLen ((doc.lineAt s.line).take s.character)⟩,
         ⟨s.line, s.character⟩⟩ := by
  unfold leadingDelimiterOf at h
  by_cases h0 : trailingWsLen ((doc.lineAt s.line).take s.character) = 0
  · simp [h0] at h
  · simp only [h0, if_false] at h
    exact ⟨by omega, (Option.some.inj h).symm⟩

theorem trailingDelimiterOf_eq_some (doc : TextDocument) (e : Position)
    (r : Range) (h : trailingDelimiterOf doc e = some r) :
    0 < leadingWsLen ((doc.lineAt e.line).drop e.character) ∧
    r = ⟨⟨e.line, e.character⟩,
         ⟨e.line, e.character +
            leadingWsLen ((doc.lineAt e.line).drop e.character)⟩⟩ := by
  unfold trailingDelimiterOf at h
  by_cases h0 : leadingWsLen ((doc.lineAt e.line).drop e.character) = 0
  · simp [h0] at h
  · simp only [h0, if_false] at h
    exact ⟨by omega, (Option.some.inj h).symm⟩

theorem leadingDelimiterOf_isSome (doc : TextDocument) (s : Position) :
    (leadingDelimiterOf doc s).isSome = true ↔
      0 < trailingWsLen ((doc.lineAt s.line).take s.character) := by
  unfold leadingDelimiterOf
  by_cases h0 : trailingWsLen ((doc.lineAt s.line).take s.character) = 0 <;>
    simp [h0] <;> omega

theorem trailingDelimiterOf_isSome (doc : TextDocument) (e : Position) :
    (trailingDelimiterOf doc e).isSome = true ↔
      0 < leadingWsLen ((doc.lineAt e.line).drop e.character) := by
  unfold trailingDelimiterOf
  by_cases h0 : leadingWsLen ((doc.lineAt e.line).drop e.character) = 0 <;>
    simp [h0] <;> omega

/-- The leading scan finds a run exactly when the content start is not at
column 0 and the character just before it is whitespace. -/
theorem leadingDelimiterOf_isSome_iff (doc : TextDocument) (s : Position)
    (hs : s.character ≤ (doc.lineAt s.line).length) :
    (leadingDelimiterOf doc s).isSome = true ↔
      0 < s.character ∧
      isWhitespace ((doc.lineAt s.line).getD (s.character - 1) 'a') = true := by
  rw [leadingDelimiterOf_isSome]
  have hlen : ((doc.lineAt s.line).take s.character).length = s.character := by
    simp [List.length_take]
    omega
  rw [trailingWsLen_pos_iff _ 'a', hlen]
  rcases Nat.eq_zero_or_pos s.character with hc | hc
  · simp [hc]
  · rw [getD_take _ _ _ 'a' (by omega : s.character - 1 < s.character)]

/-- The trailing scan finds a run exactly when the content end is before
end-of-line and the character at it is whitespace. -/
theorem trailingDelimiterOf_isSome_iff (doc : TextDocument) (e : Position) :
    (trailingDelimiterOf doc e).isSome = true ↔
      e.character < (doc.lineAt e.line).length ∧
      isWhitespace ((doc.lineAt e.line).getD e.character 'a') = true := by
  rw [trailingDelimiterOf_isSome]
  rw [leadingWsLen_pos_iff _ 'a', getD_drop]
  simp only [List.length_drop, Nat.add_zero]
  constructor
  · rintro ⟨h1, h2⟩
    exact ⟨by omega, h2⟩
  · rintro ⟨h1, h2⟩
    exact ⟨by omega, h2⟩

theorem position_eq_iff (p : Position) (c : Nat) :
    p = (⟨p.line, c⟩ : Position) ↔ p.character = c := by
  constructor
  · intro h
    exact congrArg Position.character h
  · intro h
    calc p = ⟨p.line, p.character⟩ := rfl
    _ = ⟨p.line, c⟩ := by rw [h]

/-- The boolean qualification test of the source agrees with the spec's
three-part policy on valid content ranges. -/
theorem isInDelimitedList_iff (doc : TextDocument) (r : Range)
    (hs : r.start.character ≤ (doc.lineAt r.start.line).length) :
    isInDelimitedList doc r = true ↔ qualifiedSpec doc r := by
  unfold isInDelimitedList qualifiedSpec leadFound trailFound
  rw [Bool.and_eq_true, Bool.and_eq_true, Bool.or_eq_true, Bool.or_eq_true,
    Bool.or_eq_true, decide_eq_true_eq, decide_eq_true_eq,
    leadingDelimiterOf_isSome_iff doc r.start hs,
    trailingDelimiterOf_isSome_iff doc r.«end»,
    position_eq_iff]
  tauto

theorem run_leadingDelimiterRange (ctx : ProcessedTargetsContext)
    (stage : ContainingScopeModifier) (sel : TypedSelection) :
    (TokenStage.run ctx stage sel).leadingDelimiterRange =
      if isInDelimitedList sel.editor.document sel.contentRange
      then leadingDelimiterOf sel.editor.document sel.contentRange.start
      else none := rfl

theorem run_trailingDelimiterRange (ctx : ProcessedTargetsContext)
    (stage : ContainingScopeModifier) (sel : TypedSelection) :
    (TokenStage.run ctx stage sel).trailingDelimiterRange =
      if isInDelimitedList sel.editor.document sel.contentRange
      then trailingDelimiterOf sel.editor.document sel.contentRange.«end»
      else none := rfl

/-- A found leading delimiter range ends at the scanned position, stays on
its line, and covers exactly the maximal whitespace run before it. -/
theorem leadingDelimiterOf_spec (doc : TextDocument) (s : Position) (r : Range)
    (hs : s.character ≤ (doc.lineAt s.line).length)
    (hr : leadingDelimiterOf doc s = some r) :
    r.«end» = s ∧ r.start.line = s.line ∧
    r.start.character < s.character ∧
    (∀ i, r.start.character ≤ i → i < s.character →
      isWhitespace ((doc.lineAt s.line).getD i 'a') = true) ∧
    (r.start.character = 0 ∨
      isWhitespace ((doc.lineAt s.line).getD (r.start.character - 1) 'a') =
        false) := by
  obtain ⟨hk, hre⟩ := leadingDelimiterOf_eq_some doc s r hr
  subst hre
  dsimp only
  have hlen : ((doc.lineAt s.line).take s.character).length = s.character := by
    simp [List.length_take]
    omega
  have hkle : trailingWsLen ((doc.lineAt s.line).take s.character) ≤
      s.character := by
    have := trailingWsLen_le ((doc.lineAt s.line).take s.character)
    omega
  refine ⟨rfl, rfl, by omega, ?_, ?_⟩
  · intro i h1 h2
    have hws := trailingWsLen_ws ((doc.lineAt s.line).take s.character) 'a' i
      (by omega) (by omega)
    rwa [getD_take _ _ _ 'a' h2] at hws
  · by_cases hz :
        s.character - trailingWsLen ((doc.lineAt s.line).take s.character) = 0
    · exact Or.inl hz
    · refine Or.inr ?_
      have hklt : trailingWsLen ((doc.lineAt s.line).take s.character) <
          ((doc.lineAt s.line).take s.character).length := by omega
      have hws := trailingWsLen_maximal
        ((doc.lineAt s.line).take s.character) 'a' hklt
      rw [hlen] at hws
      rwa [getD_take _ _ _ 'a' (by omega)] at hws

/-- A found trailing delimiter range starts at the scanned position, stays
on its line within bounds, and covers exactly the maximal whitespace run
after it. -/
theorem trailingDelimiterOf_spec (doc : TextDocument) (e : Position)
    (r : Range) (he : e.character ≤ (doc.lineAt e.line).length)
    (hr : trailingDelimiterOf doc e = some r) :
    r.start = e ∧ r.«end».line = e.line ∧
    e.character < r.«end».character ∧
    r.«end».character ≤ (doc.lineAt e.line).length ∧
    (∀ i, e.character ≤ i → i < r.«end».character →
      isWhitespace ((doc.lineAt e.line).getD i 'a') = true) ∧
    (r.«end».character = (doc.lineAt e.line).length ∨
      isWhitespace ((doc.lineAt e.line).getD r.«end».character 'a') =
        false) := by
  obtain ⟨hk, hre⟩ := trailingDelimiterOf_eq_some doc e r hr
  subst hre
  dsimp only
  have hlen : ((doc.lineAt e.line).drop e.character).length =
      (doc.lineAt e.line).length - e.character := by
    simp [List.length_drop]
  have hkle : leadingWsLen ((doc.lineAt e.line).drop e.character) ≤
      (doc.lineAt e.line).length - e.character := by
    have := leadingWsLen_le ((doc.lineAt e.line).drop e.character)
    omega
  refine ⟨rfl, rfl, by omega, by omega, ?_, ?_⟩
  · intro i h1 h2
    have hws := leadingWsLen_ws ((doc.lineAt e.line).drop e.character) 'a'
      (i - e.character) (by omega)
    rw [getD_drop] at hws
    have heq : e.character + (i - e.character) = i := by omega
    rwa [heq] at hws
  · by_cases hz :
        e.character + leadingWsLen ((doc.lineAt e.line).drop e.character) =
          (doc.lineAt e.line).length
    · exact Or.inl hz
    · refine Or.inr ?_
      have hklt : leadingWsLen ((doc.lineAt e.line).drop e.character) <
          ((doc.lineAt e.line).drop e.character).length := by omega
      have hws := leadingWsLen_maximal
        ((doc.lineAt e.line).drop e.character) 'a' hklt
      rwa [getD_drop] at hws

/-! ### Claim theorems -/

/-- Claim C9: both stages are deterministic and read nothing from the pipeline
context: running the same stage on the same descriptor and selection
under any two contexts yields equal outputs. -/
theorem stages_ignore_context :
    (∀ (c₁ c₂ : ProcessedTargetsContext) (stage : PositionModifier)
        (sel : TypedSelection),
        PositionStage.run c₁ stage sel = PositionStage.run c₂ stage sel) ∧
    (∀ (c₁ c₂ : ProcessedTargetsContext) (stage : ContainingScopeModifier)
        (sel : TypedSelection),
        TokenStage.run c₁ stage sel = TokenStage.run c₂ stage sel) :=
  ⟨fun _ _ _ _ => rfl, fun _ _ _ _ => rfl⟩

/-- Claim C4, counterexample: on the descriptor position "bogus" — outside the
recognized enum — the Position Stage silently returns the input selection
unchanged instead of signalling any failure. -/
theorem positionStage_unknown_silent :
    PositionStage.run ctx0 ⟨"bogus"⟩ selBar = selBar := by
  decide

/-- Claim C4 as amended: if the Position Stage receives a descriptor whose position
value is outside the recognized enum before/start/after/end, it returns
the input selection unchanged (the source switch has no default case and
no error path), so the pipeline fold continues with the input selection. -/
theorem positionStage_unknown_identity (ctx : ProcessedTargetsContext)
    (stage : PositionModifier) (sel : TypedSelection)
    (h : stage.position ∉ (["before", "start", "after", "end"] : List String)) :
    PositionStage.run ctx stage sel = sel := by
  simp only [List.mem_cons, List.not_mem_nil, or_false] at h
  push_neg at h
  obtain ⟨h1, h2, h3, h4⟩ := h
  unfold PositionStage.run
  rw [if_neg (by tauto), if_neg (by tauto)]

/-- Claim C4 as amended, witness at the concrete position "bogus". -/
theorem positionStage_unknown_identity_witness :
    (⟨"bogus"⟩ : PositionModifier).position ∉
        (["before", "start", "after", "end"] : List String) ∧
    PositionStage.run ctx0 ⟨"bogus"⟩ selEol = selEol :=
  ⟨by decide, positionStage_unknown_identity ctx0 ⟨"bogus"⟩ selEol (by decide)⟩

/-- Claim C5: for a recognized position, the output content range is the
zero-width range at the input's start (before/start) or at the input's
end (after/end); in all cases the output content range is zero-width. -/
theorem positionStage_zero_width (ctx : ProcessedTargetsContext)
    (stage : PositionModifier) (sel : TypedSelection)
    (h : stage.position ∈ (["before", "start", "after", "end"] : List String)) :
    ((stage.position = "before" ∨ stage.position = "start") →
      (PositionStage.run ctx stage sel).contentRange =
        ⟨sel.contentRange.start, sel.contentRange.start⟩) ∧
    ((stage.position = "after" ∨ stage.position = "end") →
      (PositionStage.run ctx stage sel).contentRange =
        ⟨sel.contentRange.«end», sel.contentRange.«end»⟩) ∧
    (PositionStage.run ctx stage sel).contentRange.start =
      (PositionStage.run ctx stage sel).contentRange.«end» := by
  simp only [List.mem_cons, List.not_mem_nil, or_false] at h
  unfold PositionStage.run
  rcases h with h | h | h | h
  · rw [h, if_pos (Or.inl rfl)]
    exact ⟨fun _ => rfl, fun hc => absurd hc (by decide), rfl⟩
  · rw [h, if_pos (Or.inr rfl)]
    exact ⟨fun _ => rfl, fun hc => absurd hc (by decide), rfl⟩
  · rw [h, if_neg (by decide), if_pos (Or.inl rfl)]
    exact ⟨fun hc => absurd hc (by decide), fun _ => rfl, rfl⟩
  · rw [h, if_neg (by decide), if_pos (Or.inr rfl)]
    exact ⟨fun hc => absurd hc (by decide), fun _ => rfl, rfl⟩

/-- Claim C5, witness: a multi-line content range with position "before" still
collapses to the zero-width range at the original start. -/
theorem positionStage_zero_width_witness :
    (⟨"before"⟩ : PositionModifier).position ∈
        (["before", "start", "after", "end"] : List String) ∧
    (PositionStage.run ctx0 ⟨"before"⟩ selMulti).contentRange =
      ⟨selMulti.contentRange.start, selMulti.contentRange.start⟩ :=
  ⟨by decide,
    (positionStage_zero_width ctx0 ⟨"before"⟩ selMulti (by decide)).1
      (Or.inl rfl)⟩

/-- Claim C6: the Position Stage is idempotent on every recognized position. -/
theorem positionStage_idempotent (ctx : ProcessedTargetsContext)
    (stage : PositionModifier) (sel : TypedSelection)
    (h : stage.position ∈ (["before", "start", "after", "end"] : List String)) :
    PositionStage.run ctx stage (PositionStage.run ctx stage sel) =
      PositionStage.run ctx stage sel := by
  simp only [List.mem_cons, List.not_mem_nil, or_false] at h
  rcases sel with ⟨ed, rev, raw, delim, cr, ir, ld, td, bd⟩
  rcases h with h | h | h | h <;>
    rcases ir with _ | r <;>
    simp +decide [PositionStage.run, rangeAt, h]

/-- Claim C6, witness at position "end" on a concrete selection. -/
theorem positionStage_idempotent_witness :
    (⟨"end"⟩ : PositionModifier).position ∈
        (["before", "start", "after", "end"] : List String) ∧
    PositionStage.run ctx0 ⟨"end"⟩ (PositionStage.run ctx0 ⟨"end"⟩ selMulti) =
      PositionStage.run ctx0 ⟨"end"⟩ selMulti :=
  ⟨by decide, positionStage_idempotent ctx0 ⟨"end"⟩ selMulti (by decide)⟩

/-- Claim C7: for a recognized position the Position Stage copies delimiter,
both delimiter ranges, boundary, isRawSelection, isReversed and editor
unchanged, and maps an absent interior range to absent, a present one to
the zero-width range at its start (before/start) or end (after/end). -/
theorem positionStage_frame (ctx : ProcessedTargetsContext)
    (stage : PositionModifier) (sel : TypedSelection)
    (h : stage.position ∈ (["before", "start", "after", "end"] : List String)) :
    (PositionStage.run ctx stage sel).editor = sel.editor ∧
    (PositionStage.run ctx stage sel).delimiter = sel.delimiter ∧
    (PositionStage.run ctx stage sel).leadingDelimiterRange =
      sel.leadingDelimiterRange ∧
    (PositionStage.run ctx stage sel).trailingDelimiterRange =
      sel.trailingDelimiterRange ∧
    (PositionStage.run ctx stage sel).boundary = sel.boundary ∧
    (PositionStage.run ctx stage sel).isRawSelection = sel.isRawSelection ∧
    (PositionStage.run ctx stage sel).isReversed = sel.isReversed ∧
    ((stage.position = "before" ∨ stage.position = "start") →
      (PositionStage.run ctx stage sel).interiorRange =
        sel.interiorRange.map (fun r => ⟨r.start, r.start⟩)) ∧
    ((stage.position = "after" ∨ stage.position = "end") →
      (PositionStage.run ctx stage sel).interiorRange =
        sel.interiorRange.map (fun r => ⟨r.«end», r.«end»⟩)) := by
  simp only [List.mem_cons, List.not_mem_nil, or_false] at h
  unfold PositionStage.run
  have hmap : ∀ o : Option Range,
      rangeAt (o.map (fun r => r.start)) =
        o.map (fun r => (⟨r.start, r.start⟩ : Range)) := by
    intro o
    rcases o with _ | r <;> simp [rangeAt]
  have hmap' : ∀ o : Option Range,
      rangeAt (o.map (fun r => r.«end»)) =
        o.map (fun r => (⟨r.«end», r.«end»⟩ : Range)) := by
    intro o
    rcases o with _ | r <;> simp [rangeAt]
  rcases h with h | h | h | h
  · rw [h, if_pos (Or.inl rfl)]
    exact ⟨rfl, rfl, rfl, rfl, rfl, rfl, rfl,
      fun _ => hmap sel.interiorRange, fun hc => absurd hc (by decide)⟩
  · rw [h, if_pos (Or.inr rfl)]
    exact ⟨rfl, rfl, rfl, rfl, rfl, rfl, rfl,
      fun _ => hmap sel.interiorRange, fun hc => absurd hc (by decide)⟩
  · rw [h, if_neg (by decide), if_pos (Or.inl rfl)]
    exact ⟨rfl, rfl, rfl, rfl, rfl, rfl, rfl,
      fun hc => absurd hc (by decide), fun _ => hmap' sel.interiorRange⟩
  · rw [h, if_neg (by decide), if_pos (Or.inr rfl)]
    exact ⟨rfl, rfl, rfl, rfl, rfl, rfl, rfl,
      fun hc => absurd hc (by decide), fun _ => hmap' sel.interiorRange⟩

/-- Claim C7, witness: frame fields of a concrete "after" run, with the interior
range collapsed to the zero-width range at its end. -/
theorem positionStage_frame_witness :
    (⟨"after"⟩ : PositionModifier).position ∈
        (["before", "start", "after", "end"] : List String) ∧
    (PositionStage.run ctx0 ⟨"after"⟩ selMulti).interiorRange =
      selMulti.interiorRange.map (fun r => ⟨r.«end», r.«end»⟩) :=
  ⟨by decide,
    ((positionStage_frame ctx0 ⟨"after"⟩ selMulti
        (by decide)).2.2.2.2.2.2.2.2 (Or.inl rfl))⟩

/-- Claim C8: the Token Stage sets delimiter to a single space unconditionally
and passes every field other than the two delimiter ranges through
unchanged. -/
theorem tokenStage_frame (ctx : ProcessedTargetsContext)
    (stage : ContainingScopeModifier) (sel : TypedSelection) :
    (TokenStage.run ctx stage sel).delimiter = some [' '] ∧
    (TokenStage.run ctx stage sel).editor = sel.editor ∧
    (TokenStage.run ctx stage sel).contentRange = sel.contentRange ∧
    (TokenStage.run ctx stage sel).interiorRange = sel.interiorRange ∧
    (TokenStage.run ctx stage sel).boundary = sel.boundary ∧
    (TokenStage.run ctx stage sel).isReversed = sel.isReversed ∧
    (TokenStage.run ctx stage sel).isRawSelection = sel.isRawSelection :=
  ⟨rfl, rfl, rfl, rfl, rfl, rfl, rfl⟩

/-- Claim C1: on a valid content range, the Token Stage attaches a delimiter
range (i.e. marks the selection as in a delimited list) exactly when the
spec's three-part qualification policy holds, and attaches neither range
when it does not. -/
theorem tokenStage_qualification (ctx : ProcessedTargetsContext)
    (stage : ContainingScopeModifier) (sel : TypedSelection)
    (hv : sel.contentRangeValid) :
    (((TokenStage.run ctx stage sel).leadingDelimiterRange.isSome = true ∨
        (TokenStage.run ctx stage sel).trailingDelimiterRange.isSome = true) ↔
      qualifiedSpec sel.editor.document sel.contentRange) ∧
    (¬ qualifiedSpec sel.editor.document sel.contentRange →
      (TokenStage.run ctx stage sel).leadingDelimiterRange = none ∧
      (TokenStage.run ctx stage sel).trailingDelimiterRange = none) := by
  obtain ⟨-, -, hs, -⟩ := hv
  have hq := isInDelimitedList_iff sel.editor.document sel.contentRange hs
  rw [run_leadingDelimiterRange, run_trailingDelimiterRange]
  by_cases hb : isInDelimitedList sel.editor.document sel.contentRange = true
  · rw [if_pos hb, if_pos hb]
    have hqs := hq.mp hb
    refine ⟨⟨fun _ => hqs, fun _ => ?_⟩, fun hns => absurd hqs hns⟩
    rcases hqs.1 with hf | hf
    · exact Or.inl ((leadingDelimiterOf_isSome_iff _ _ hs).mpr hf)
    · exact Or.inr ((trailingDelimiterOf_isSome_iff _ _).mpr hf)
  · rw [if_neg hb, if_neg hb]
    have hnq : ¬ qualifiedSpec sel.editor.document sel.contentRange :=
      fun hqs => hb (hq.mpr hqs)
    exact ⟨by simp [hnq], fun _ => ⟨rfl, rfl⟩⟩

/-- Claim C1, witness: the spec's "foobar"/"foo" scenario — valid range, not
qualified, both output delimiter ranges absent. -/
theorem tokenStage_qualification_witness :
    selFoo.contentRangeValid ∧
    ¬ qualifiedSpec selFoo.editor.document selFoo.contentRange ∧
    (TokenStage.run ctx0 tokenScope0 selFoo).leadingDelimiterRange = none ∧
    (TokenStage.run ctx0 tokenScope0 selFoo).trailingDelimiterRange = none :=
  ⟨by decide, by decide,
    (tokenStage_qualification ctx0 tokenScope0 selFoo (by decide)).2
      (by decide)⟩

/-- Claim C2: the Token Stage never leaves exactly one delimiter range defined
unless the other side is a genuine line boundary: a defined leading range
with an absent trailing range forces the content end to sit at
end-of-line, and symmetrically an absent leading range forces column 0. -/
theorem tokenStage_totality (ctx : ProcessedTargetsContext)
    (stage : ContainingScopeModifier) (sel : TypedSelection)
    (hv : sel.contentRangeValid) :
    ((TokenStage.run ctx stage sel).leadingDelimiterRange.isSome = true →
      (TokenStage.run ctx stage sel).trailingDelimiterRange = none →
      sel.contentRange.«end».character =
        (sel.editor.document.lineAt sel.contentRange.«end».line).length) ∧
    ((TokenStage.run ctx stage sel).trailingDelimiterRange.isSome = true →
      (TokenStage.run ctx stage sel).leadingDelimiterRange = none →
      sel.contentRange.start.character = 0) := by
  rw [run_leadingDelimiterRange, run_trailingDelimiterRange]
  by_cases hb : isInDelimitedList sel.editor.document sel.contentRange = true
  · rw [if_pos hb, if_pos hb]
    unfold isInDelimitedList at hb
    rw [Bool.and_eq_true, Bool.and_eq_true, Bool.or_eq_true, Bool.or_eq_true,
      Bool.or_eq_true, decide_eq_true_eq, decide_eq_true_eq] at hb
    obtain ⟨⟨h1, h2⟩, h3⟩ := hb
    constructor
    · intro hl ht
      rcases h3 with h3 | h3
      · rw [ht] at h3
        simp at h3
      · exact congrArg Position.character h3
    · intro ht hl
      rcases h2 with h2 | h2
      · rw [hl] at h2
        simp at h2
      · exact h2
  · rw [if_neg hb, if_neg hb]
    exact ⟨fun hl => by simp at hl, fun ht => by simp at ht⟩

/-- Claim C2, witness: "x foo" selecting "foo" — the leading range is defined,
the trailing range is absent, and indeed the content end is end-of-line. -/
theorem tokenStage_totality_witness :
    selEol.contentRangeValid ∧
    (TokenStage.run ctx0 tokenScope0 selEol).leadingDelimiterRange.isSome =
      true ∧
    (TokenStage.run ctx0 tokenScope0 selEol).trailingDelimiterRange = none ∧
    selEol.contentRange.«end».character =
      (selEol.editor.document.lineAt selEol.contentRange.«end».line).length :=
  ⟨by decide, by decide, by decide,
    (tokenStage_totality ctx0 tokenScope0 selEol (by decide)).1
      (by decide) (by decide)⟩

/-- Claim C3: every attached leading delimiter range ends exactly at the content
start and covers exactly the maximal whitespace run before it on its
line; every attached trailing delimiter range starts exactly at the
content end and covers exactly the maximal whitespace run after it. -/
theorem tokenStage_delimiter_exact (ctx : ProcessedTargetsContext)
    (stage : ContainingScopeModifier) (sel : TypedSelection)
    (hv : sel.contentRangeValid) :
    (∀ r : Range,
      (TokenStage.run ctx stage sel).leadingDelimiterRange = some r →
      r.«end» = sel.contentRange.start ∧
      r.start.line = sel.contentRange.start.line ∧
      r.start.character < sel.contentRange.start.character ∧
      (∀ i, r.start.character ≤ i → i < sel.contentRange.start.character →
        isWhitespace
          ((sel.editor.document.lineAt sel.contentRange.start.line).getD i
            'a') = true) ∧
      (r.start.character = 0 ∨
        isWhitespace
          ((sel.editor.document.lineAt sel.contentRange.start.line).getD
            (r.start.character - 1) 'a') = false)) ∧
    (∀ r : Range,
      (TokenStage.run ctx stage sel).trailingDelimiterRange = some r →
      r.start = sel.contentRange.«end» ∧
      r.«end».line = sel.contentRange.«end».line ∧
      sel.contentRange.«end».character < r.«end».character ∧
      (∀ i, sel.contentRange.«end».character ≤ i → i < r.«end».character →
        isWhitespace
          ((sel.editor.document.lineAt sel.contentRange.«end».line).getD i
            'a') = true) ∧
      (r.«end».character =
          (sel.editor.document.lineAt sel.contentRange.«end».line).length ∨
        isWhitespace
          ((sel.editor.document.lineAt sel.contentRange.«end».line).getD
            r.«end».character 'a') = false)) := by
  obtain ⟨-, -, hs, he⟩ := hv
  constructor
  · intro r hr
    rw [run_leadingDelimiterRange] at hr
    by_cases hb : isInDelimitedList sel.editor.document sel.contentRange = true
    · rw [if_pos hb] at hr
      have h := leadingDelimiterOf_spec sel.editor.document
        sel.contentRange.start r hs hr
      exact ⟨h.1, h.2.1, h.2.2.1, h.2.2.2.1, h.2.2.2.2⟩
    · rw [if_neg hb] at hr
      simp at hr
  · intro r hr
    rw [run_trailingDelimiterRange] at hr
    by_cases hb : isInDelimitedList sel.editor.document sel.contentRange = true
    · rw [if_pos hb] at hr
      have h := trailingDelimiterOf_spec sel.editor.document
        sel.contentRange.«end» r he hr
      exact ⟨h.1, h.2.1, h.2.2.1, h.2.2.2.2.1, h.2.2.2.2.2⟩
    · rw [if_neg hb] at hr
      simp at hr

/-- Claim C3, witness: the spec's "foo bar baz"/"bar" scenario — the leading
range covers columns 3-4 and ends at the content start, the trailing
range covers columns 7-8 and starts at the content end. -/
theorem tokenStage_delimiter_exact_witness :
    selBar.contentRangeValid ∧
    (TokenStage.run ctx0 tokenScope0 selBar).leadingDelimiterRange =
      some ⟨⟨0, 3⟩, ⟨0, 4⟩⟩ ∧
    (TokenStage.run ctx0 tokenScope0 selBar).trailingDelimiterRange =
      some ⟨⟨0, 7⟩, ⟨0, 8⟩⟩ ∧
    (⟨⟨0, 3⟩, ⟨0, 4⟩⟩ : Range).«end» = selBar.contentRange.start ∧
    (⟨⟨0, 7⟩, ⟨0, 8⟩⟩ : Range).start = selBar.contentRange.«end» :=
  ⟨by decide, by decide, by decide,
    ((tokenStage_delimiter_exact ctx0 tokenScope0 selBar (by decide)).1
      ⟨⟨0, 3⟩, ⟨0, 4⟩⟩ (by decide)).1,
    ((tokenStage_delimiter_exact ctx0 tokenScope0 selBar (by decide)).2
      ⟨⟨0, 7⟩, ⟨0, 8⟩⟩ (by decide)).1⟩

/-- Claim C10: every attached delimiter range lies on the single line of the
content endpoint it abuts, stays within that line's column bounds, is
well-formed, and touches the content range exactly at that endpoint. -/
theorem tokenStage_ranges_line_local (ctx : ProcessedTargetsContext)
    (stage : ContainingScopeModifier) (sel : TypedSelection)
    (hv : sel.contentRangeValid) :
    (∀ r : Range,
      (TokenStage.run ctx stage sel).leadingDelimiterRange = some r →
      r.start.line = r.«end».line ∧
      r.«end».line = sel.contentRange.start.line ∧
      r.start.character ≤ r.«end».character ∧
      r.«end».character ≤
        (sel.editor.document.lineAt sel.contentRange.start.line).length ∧
      r.«end» = sel.contentRange.start) ∧
    (∀ r : Range,
      (TokenStage.run ctx stage sel).trailingDelimiterRange = some r →
      r.start.line = r.«end».line ∧
      r.start.line = sel.contentRange.«end».line ∧
      r.start.character ≤ r.«end».character ∧
      r.«end».character ≤
        (sel.editor.document.lineAt sel.contentRange.«end».line).length ∧
      r.start = sel.contentRange.«end») := by
  obtain ⟨-, -, hs, he⟩ := hv
  constructor
  · intro r hr
    rw [run_leadingDelimiterRange] at hr
    by_cases hb : isInDelimitedList sel.editor.document sel.contentRange = true
    · rw [if_pos hb] at hr
      obtain ⟨hk, hre⟩ := leadingDelimiterOf_eq_some sel.editor.document
        sel.contentRange.start r hr
      subst hre
      dsimp only
      exact ⟨rfl, rfl, by omega, hs, rfl⟩
    · rw [if_neg hb] at hr
      simp at hr
  · intro r hr
    rw [run_trailingDelimiterRange] at hr
    by_cases hb : isInDelimitedList sel.editor.document sel.contentRange = true
    · rw [if_pos hb] at hr
      obtain ⟨hk, hre⟩ := trailingDelimiterOf_eq_some sel.editor.document
        sel.contentRange.«end» r hr
      subst hre
      dsimp only
      have hkle : leadingWsLen
          ((sel.editor.document.lineAt sel.contentRange.«end».line).drop
            sel.contentRange.«end».character) ≤
          (sel.editor.document.lineAt sel.contentRange.«end».line).length -
            sel.contentRange.«end».character := by
        have := leadingWsLen_le
          ((sel.editor.document.lineAt sel.contentRange.«end».line).drop
            sel.contentRange.«end».character)
        simp [List.length_drop] at this
        omega
      exact ⟨rfl, rfl, by omega, by omega, rfl⟩
    · rw [if_neg hb] at hr
      simp at hr

/-- Claim C10, witness: on "x foo" selecting "foo", the attached leading range
lies on line 0 within columns 1-2 and touches the content start. -/
theorem tokenStage_ranges_line_local_witness :
    selEol.contentRangeValid ∧
    (TokenStage.run ctx0 tokenScope0 selEol).leadingDelimiterRange =
      some ⟨⟨0, 1⟩, ⟨0, 2⟩⟩ ∧
    (⟨⟨0, 1⟩, ⟨0, 2⟩⟩ : Range).«end» = selEol.contentRange.start :=
  ⟨by decide, by decide,
    ((tokenStage_ranges_line_local ctx0 tokenScope0 selEol (by decide)).1
      ⟨⟨0, 1⟩, ⟨0, 2⟩⟩ (by decide)).2.2.2.2⟩

end Cursorless
